import Mathlib

/-!
Verification of the peak-fitting and cut-extraction subsystem of
`src/analysis/fitting.py`.

The Python code is shallowly embedded: count spectra are `List ℚ`
(numpy float arrays with exact rational literals), numpy integer indices
are `ℕ`/`ℤ`, and Python's `round` (banker's rounding, half to even) is
`pyRound`.  The external numerical solvers (`scipy.optimize.curve_fit`,
`scipy.odr`) are out of scope per the spec; the functions that call them
are embedded up to the solver boundary: `fit_mca_gaussian` and the
spectrum orchestrators return the exact argument bundle (`FitCall`)
handed to the two-stage fitter, and `fit_odr` is embedded as the
post-solver control flow of lines 295-318, parametrised by the two
solver outcomes.  A Python call that raises (IndexError on an empty
`threshold_inds`, ValueError from `np.argmax`/`np.max` on empty input)
is embedded as `none`; the explicit `raise ValueError` of
`fit_mca_gaussian` is `Except.error`.
-/

/-- Python's builtin `round` on an exact rational: round half to even,
as numpy/CPython do for `round(float)` (`fitting.py` lines 70-71). -/
def pyRound (q : ℚ) : ℤ :=
  if q - ⌊q⌋ < 1/2 then ⌊q⌋
  else if (1:ℚ)/2 < q - ⌊q⌋ then ⌊q⌋ + 1
  else if ⌊q⌋ % 2 = 0 then ⌊q⌋ else ⌊q⌋ + 1

/-- Embedding of `np.arange(a, b)` for integer bounds: `[a, a+1, ..., b-1]`, empty when `b ≤ a`. -/
def arange (a b : ℤ) : List ℤ :=
  (List.range (b - a).toNat).map (fun k : ℕ => a + (k : ℤ))

/-- Read a numpy array at a (known in-range) index; `0` as the junk default. -/
def nth (l : List ℚ) (i : ℕ) : ℚ := l.getD i 0

/-- Embedding of `np.argmax`: index of the first occurrence of the maximum value. -/
def argmax (l : List ℚ) : ℕ :=
  l.findIdx (fun x => l.all (fun y => decide (y ≤ x)))

/-- Embedding of `np.max` on a (nonempty) array. -/
def pymax (l : List ℚ) : ℚ := l.foldl max (l.headD 0)

/-- The index set `np.where(data > peak * threshold_level)[0]` of
`fitting.py` line 68, with `peak = data[np.argmax(data)]`. -/
def thresholdInds (data : List ℚ) (threshold_level : ℚ) : List ℕ :=
  (List.range data.length).filter
    (fun i => decide (nth data (argmax data) * threshold_level < nth data i))

/-- Result bundle of `get_cut` (`fitting.py` line 74):
`(cut_inds, threshold_width, peak_ind, peak)`. -/
structure CutRes where
  cutInds : List ℤ
  thresholdWidth : ℤ
  peakInd : ℕ
  peak : ℚ
deriving Repr, DecidableEq

/-- Embedding of `get_cut` (`fitting.py` lines 61-74).  `none` models the IndexError
raised on line 69 when `threshold_inds` is empty, and the ValueError of
`np.argmax` on an empty array. -/
def get_cut (data : List ℚ) (threshold_level cut_width_mult : ℚ) : Option CutRes :=
  if data.isEmpty then none
  else
    match thresholdInds data threshold_level with
    | [] => none
    | t :: ts =>
      let peak_ind := argmax data
      let peak := nth data peak_ind
      let t1 := (t :: ts).getLast (List.cons_ne_nil t ts)
      let cut_ind_min := pyRound (max 0 ((peak_ind : ℚ) - cut_width_mult * ((peak_ind : ℚ) - (t : ℚ))))
      let cut_ind_max := pyRound (min (data.length : ℚ)
        ((peak_ind : ℚ) + cut_width_mult * ((t1 : ℚ) - (peak_ind : ℚ)) + 1))
      some ⟨arange cut_ind_min cut_ind_max, (t1 : ℤ) - (t : ℤ), peak_ind, peak⟩

/-- The containment guarantee of spec section 4.1: all cut indices lie in
the half-open index range of the data array. -/
def cutWithin (c : CutRes) (n : ℕ) : Prop :=
  ∀ i ∈ c.cutInds, 0 ≤ i ∧ i < (n : ℤ)

/-- The cut index list is contiguous: anything between two members is a member. -/
def cutContiguous (c : CutRes) : Prop :=
  ∀ i j k : ℤ, i ∈ c.cutInds → k ∈ c.cutInds → i ≤ j → j ≤ k → j ∈ c.cutInds

/-- The full guarantee of claim C1 for one `get_cut` call: the call
succeeds and returns a non-empty contiguous window inside
`[0, len(data))` containing the peak index. -/
def goodCut (data : List ℚ) (tl m : ℚ) : Prop :=
  ∃ c, get_cut data tl m = some c ∧ c.cutInds ≠ [] ∧ cutWithin c data.length ∧
    cutContiguous c ∧ ((c.peakInd : ℤ) ∈ c.cutInds)

/-- An IEEE double as seen by the checks in `fit_odr`: a finite value
(embedded exactly as a rational), an infinity, or NaN. -/
inductive PyFloat where
  | fin : ℚ → PyFloat
  | inf : PyFloat
  | ninf : PyFloat
  | nan : PyFloat
deriving Repr, DecidableEq

/-- Embedding of `np.isinf` on one entry. -/
def PyFloat.isinf : PyFloat → Bool
  | inf => true
  | ninf => true
  | _ => false

/-- numpy truthiness of one entry: only a finite zero is falsy. -/
def PyFloat.truthy : PyFloat → Bool
  | fin q => decide (q ≠ 0)
  | _ => true

/-- Embedding of `np.any(np.isinf(mat))` for a matrix. -/
def npAnyInf (mat : List (List PyFloat)) : Bool :=
  mat.any (fun row => row.any PyFloat.isinf)

/-- Embedding of `np.any(mat)` for a matrix. -/
def npAny (mat : List (List PyFloat)) : Bool :=
  mat.any (fun row => row.any PyFloat.truthy)

/-- The two diagnostic warnings `fit_odr` can print (lines 296-297 and 310-314). -/
inductive FitWarning where
  | leastSquaresCovNotEstimated
  | odrCovNotEstimated
deriving Repr, DecidableEq

/-- Post-solver control flow of `fit_odr` (`fitting.py` lines 295-318).
The two external solver runs are opaque; their outcomes are the
parameters: `lsq` is `(fit[0], fit[1])` from `curve_fit` (stage 1) and
`odrOut` is `(out.beta, out.cov_beta)` from `scipy.odr` (stage 2).
Returns the `(coeff, coeff_covar)` result plus the warnings printed. -/
def fit_odr (lsq : List PyFloat × List (List PyFloat))
    (odrOut : List PyFloat × List (List PyFloat)) :
    (List PyFloat × List (List PyFloat)) × List FitWarning :=
  if npAny odrOut.2 then
    (odrOut, if npAnyInf lsq.2 then [FitWarning.leastSquaresCovNotEstimated] else [])
  else
    (lsq, (if npAnyInf lsq.2 then [FitWarning.leastSquaresCovNotEstimated] else []) ++
      [FitWarning.odrCovNotEstimated])

/-- Tag for the model function object handed to the two-stage fitter;
the fits under verification all pass `stats.gaussian_scaled`. -/
inductive ModelFn where
  | gaussian_scaled
deriving Repr, DecidableEq

/-- The ValueError of `fit_mca_gaussian` line 329 (the spec's ConfigurationError). -/
inductive ConfigError where
  | nonlinearitiesNotConfigured
deriving Repr, DecidableEq

/-- The argument bundle handed to the two-stage fitter `fit_odr` by
`fit_mca_gaussian` (lines 331-337): model function, x and y samples,
x/y uncertainties, and the initial guess `p0`. -/
structure FitCall where
  func : ModelFn
  x : List ℤ
  y : List ℚ
  std_x : List ℚ
  std_y : List ℚ
  p0 : List ℚ
deriving Repr, DecidableEq

/-- The spectrum object from `devices.mca`: counts and channels with the
optional differential/integral nonlinearity arrays. -/
structure MeasMCA where
  counts : List ℚ
  channels : List ℚ
  diff_nonlin : Option (List ℚ)
  int_nonlin : Option (List ℚ)
deriving Repr, DecidableEq

/-- Embedding of `fit_mca_gaussian` (`fitting.py` lines 321-337) up to the solver
boundary: raises (Except.error) when either nonlinearity array is
absent, otherwise returns the exact `fit_odr` invocation, with
`std_x = mca.diff_nonlin`, `std_y = mca.int_nonlin * counts`
(pointwise product) and `p0 = (peak, peak_ind, 0.4 * threshold_width)`;
the float literal `0.4` is the rational `2/5`. -/
def fit_mca_gaussian (mca : MeasMCA) (inds : List ℤ) (counts : List ℚ)
    (peak peak_ind threshold_width : ℚ) : Except ConfigError FitCall :=
  match mca.diff_nonlin, mca.int_nonlin with
  | some dnl, some inl =>
    Except.ok ⟨ModelFn.gaussian_scaled, inds, counts, dnl,
      List.zipWith (· * ·) inl counts, [peak, peak_ind, (2/5) * threshold_width]⟩
  | _, _ => Except.error ConfigError.nonlinearitiesNotConfigured

/-- numpy fancy indexing `counts[inds]` for an integer index array. -/
def gatherAt (counts : List ℚ) (inds : List ℤ) : List ℚ :=
  inds.map (fun i => nth counts i.toNat)

/-- The copy-and-zero of `fit_am` lines 93-94: `filtered = counts.copy();
filtered[:half_ind] = 0`.  The first `min k len` entries become 0. -/
def zeroUpTo (l : List ℚ) (k : ℕ) : List ℚ :=
  List.replicate (min k l.length) 0 ++ l.drop k

/-- Python prefix slice `l[:stop]` with a possibly negative stop. -/
def pySliceTo (l : List ℚ) (stop : ℤ) : List ℚ :=
  if stop < 0 then l.take (l.length - stop.natAbs) else l.take stop.toNat

/-- The mutable environment a fit call can see: the spectrum object and
the caller-supplied `subtracted` array.  The `_run` embeddings thread it
through and return its final value, which exhibits that no statement of
the source writes to either (only the fresh `filtered` copy is written). -/
structure FitState where
  mca : MeasMCA
  subtracted : Option (List ℚ)
deriving Repr, DecidableEq

/-- Result of `fit_fe`: a single fit, or primary plus secondary (escape peak). -/
inductive FeResult where
  | single : FitCall → FeResult
  | dual : FitCall → FitCall → FeResult
deriving Repr, DecidableEq

/-- Embedding of `fit_am` (`fitting.py` lines 77-113) up to plotting and the solver
boundary.  `none` models an uncaught numpy exception (empty input or
empty threshold crossing).  The Gaussian fit at line 104 receives the
original `counts` gathered at the cut, while the cut itself comes from
the zeroed copy `filtered`. -/
def fit_am_run (st : FitState) (threshold_level cut_width_mult : ℚ) :
    FitState × Option (Except ConfigError FitCall) :=
  if (st.subtracted.getD st.mca.counts).isEmpty then (st, none)
  else
    match (List.range (st.subtracted.getD st.mca.counts).length).filter
        (fun i => decide (threshold_level * pymax (st.subtracted.getD st.mca.counts) <
          nth (st.subtracted.getD st.mca.counts) i)) with
    | [] => (st, none)
    | a :: rest =>
      match get_cut (zeroUpTo (st.subtracted.getD st.mca.counts)
          ((a + (a :: rest).getLast (List.cons_ne_nil a rest)) / 2))
          threshold_level cut_width_mult with
      | none => (st, none)
      | some c =>
        (st, some (fit_mca_gaussian st.mca c.cutInds
          (gatherAt (st.subtracted.getD st.mca.counts) c.cutInds)
          c.peak (c.peakInd : ℚ) (c.thresholdWidth : ℚ)))

/-- Embedding of `fit_fe` (`fitting.py` lines 147-192) up to plotting and the solver
boundary.  With `secondary` enabled, the second cut search runs on
`counts[:cut_inds[0] - 10]` (line 178) and the second fit gathers the
original `counts` at the secondary cut (line 181). -/
def fit_fe_run (st : FitState) (threshold_level cut_width_mult : ℚ) (secondary : Bool) :
    FitState × Option (Except ConfigError FeResult) :=
  match get_cut (st.subtracted.getD st.mca.counts) threshold_level cut_width_mult with
  | none => (st, none)
  | some c =>
    match fit_mca_gaussian st.mca c.cutInds
        (gatherAt (st.subtracted.getD st.mca.counts) c.cutInds)
        c.peak (c.peakInd : ℚ) (c.thresholdWidth : ℚ) with
    | Except.error e => (st, some (Except.error e))
    | Except.ok fit =>
      if secondary then
        match c.cutInds with
        | [] => (st, none)
        | i0 :: _ =>
          match get_cut (pySliceTo (st.subtracted.getD st.mca.counts) (i0 - 10))
              threshold_level cut_width_mult with
          | none => (st, none)
          | some c2 =>
            match fit_mca_gaussian st.mca c2.cutInds
                (gatherAt (st.subtracted.getD st.mca.counts) c2.cutInds)
                c2.peak (c2.peakInd : ℚ) (c2.thresholdWidth : ℚ) with
            | Except.error e => (st, some (Except.error e))
            | Except.ok fit2 => (st, some (Except.ok (FeResult.dual fit fit2)))
      else (st, some (Except.ok (FeResult.single fit)))

/-- Embedding of `fit_manual` (`fitting.py` lines 252-281) up to plotting and the
solver boundary: the cut is the caller-supplied index range. -/
def fit_manual_run (st : FitState) (min_ind max_ind : ℕ) :
    FitState × Option (Except ConfigError FitCall) :=
  if (arange (min_ind : ℤ) (max_ind : ℤ)).isEmpty then (st, none)
  else if (st.subtracted.getD st.mca.counts).length < max_ind then (st, none)
  else
    (st, some (fit_mca_gaussian st.mca (arange (min_ind : ℤ) (max_ind : ℤ))
      (gatherAt (st.subtracted.getD st.mca.counts) (arange (min_ind : ℤ) (max_ind : ℤ)))
      (nth (st.subtracted.getD st.mca.counts)
        (min_ind + argmax (gatherAt (st.subtracted.getD st.mca.counts)
          (arange (min_ind : ℤ) (max_ind : ℤ)))))
      ((min_ind + argmax (gatherAt (st.subtracted.getD st.mca.counts)
          (arange (min_ind : ℤ) (max_ind : ℤ)))) : ℚ)
      ((max_ind - min_ind : ℕ) : ℚ)))

/-- Module constant `THRESHOLD_LEVEL = 0.5` (`fitting.py` line 14). -/
def THRESHOLD_LEVEL : ℚ := 1/2

/-- Module constant `CUT_WIDTH_MULT = 1.7` (`fitting.py` line 15). -/
def CUT_WIDTH_MULT : ℚ := 17/10

/-- The single-spectrum fit performed for one element of the Fe HV scan:
`fit_fe(mca, ax, threshold_level, cut_width_mult, secondary=False, ...)`. -/
def feSingle (tl m : ℚ) (mca : MeasMCA) : Option (Except ConfigError FeResult) :=
  (fit_fe_run ⟨mca, none⟩ tl m false).2

/-- The single-spectrum fit performed for one element of the Am HV scan:
`fit_am(mca, ax, vlines=vlines)` with the module default parameters. -/
def amSingle (mca : MeasMCA) : Option (Except ConfigError FitCall) :=
  (fit_am_run ⟨mca, none⟩ THRESHOLD_LEVEL CUT_WIDTH_MULT).2

/-- The accumulation loop of `fit_fe_hv_scan` (`fitting.py` lines 219-249)
with the plotting stripped: `fits = []; for mca in mcas: fits.append(...)`. -/
def fit_fe_hv_scan (mcas : List MeasMCA) (tl m : ℚ) :
    List (Option (Except ConfigError FeResult)) :=
  mcas.foldl (fun fits mca => fits ++ [feSingle tl m mca]) []

/-- The accumulation loop of `fit_am_hv_scan` (`fitting.py` lines 133-144)
with the plotting stripped. -/
def fit_am_hv_scan (mcas : List MeasMCA) :
    List (Option (Except ConfigError FitCall)) :=
  mcas.foldl (fun fits mca => fits ++ [amSingle mca]) []

/-- A synthetic two-peak spectrum value function: a primary peak of
height 100 at channel 80 (shoulders of 60 on 75..85) and a secondary
peak of height 50 at channel 20 (shoulders of 30 on 18..22). -/
def feVal (i : ℕ) : ℚ :=
  if 75 ≤ i ∧ i ≤ 85 then (if i = 80 then 100 else 60)
  else if 18 ≤ i ∧ i ≤ 22 then (if i = 20 then 50 else 30)
  else 0

/-- The synthetic two-peak spectrum on 100 channels. -/
def feData : List ℚ := (List.range 100).map feVal

/-- A spectrum object carrying the synthetic two-peak data with
nonlinearities configured. -/
def feMCA : MeasMCA := ⟨feData, feData, some [1], some [1]⟩

/-- Fit environment for the synthetic two-peak spectrum. -/
def feState : FitState := ⟨feMCA, none⟩

/-- The expected primary fit invocation on the synthetic spectrum:
cut `[72, 90)`, seeded at `(100, 80, 0.4 * 10)`. -/
def feCallA : FitCall :=
  ⟨ModelFn.gaussian_scaled, arange 72 90, gatherAt feData (arange 72 90), [1],
    List.zipWith (· * ·) [1] (gatherAt feData (arange 72 90)), [100, 80, 4]⟩

/-- The expected secondary fit invocation on the synthetic spectrum:
cut `[17, 24)`, seeded at `(50, 20, 0.4 * 4)`. -/
def feCallB : FitCall :=
  ⟨ModelFn.gaussian_scaled, arange 17 24, gatherAt feData (arange 17 24), [1],
    List.zipWith (· * ·) [1] (gatherAt feData (arange 17 24)), [50, 20, 8/5]⟩

/-- A small concrete spectrum with nonlinearities configured. -/
def mcaW1 : MeasMCA := ⟨[1, 3, 2], [0, 1, 2], some [1], some [1]⟩

/-- A small concrete spectrum without nonlinearities. -/
def mcaW2 : MeasMCA := ⟨[2, 1], [0, 1], none, none⟩

/-- The fit invocation `fit_am` produces on `mcaW1`: the cut `[1, 3)` is
computed on the zeroed copy, the y data are the original counts. -/
def amCallW : FitCall :=
  ⟨ModelFn.gaussian_scaled, arange 1 3, [3, 2], [1], [3], [3, 1, 2/5]⟩

-- ### Basic lemmas about the numeric helpers

theorem pyRound_eq_floor_or_succ (q : ℚ) : pyRound q = ⌊q⌋ ∨ pyRound q = ⌊q⌋ + 1 := by
  unfold pyRound
  split
  · exact Or.inl rfl
  · split
    · exact Or.inr rfl
    · split
      · exact Or.inl rfl
      · exact Or.inr rfl

theorem floor_le_pyRound (q : ℚ) : ⌊q⌋ ≤ pyRound q := by
  rcases pyRound_eq_floor_or_succ q with h | h <;> omega

theorem le_pyRound {a : ℤ} {q : ℚ} (h : (a : ℚ) ≤ q) : a ≤ pyRound q :=
  le_trans (Int.le_floor.mpr h) (floor_le_pyRound q)

theorem pyRound_le {b : ℤ} {q : ℚ} (h : q ≤ (b : ℚ)) : pyRound q ≤ b := by
  have hfb : ⌊q⌋ ≤ b := by
    have := Int.floor_le_floor h
    simpa [Int.floor_intCast] using this
  rcases pyRound_eq_floor_or_succ q with hr | hr
  · omega
  · -- in the `+ 1` branch the fractional part is at least 1/2, so `q` is not an integer
    have hfrac : ¬ (q - ⌊q⌋ < 1/2) := by
      by_contra hc
      simp only [pyRound, if_pos hc] at hr
      omega
    push_neg at hfrac
    have hlt : (⌊q⌋ : ℚ) < q := by linarith
    have : ⌊q⌋ < b := by
      by_contra hc
      have hqb : ⌊q⌋ = b := le_antisymm hfb (by omega)
      rw [hqb] at hlt
      linarith
    omega

theorem pyRound_mono {a b : ℚ} (h : a ≤ b) : pyRound a ≤ pyRound b := by
  rcases lt_or_ge ⌊a⌋ ⌊b⌋ with hf | hf
  · have h1 := pyRound_eq_floor_or_succ a
    have h2 := floor_le_pyRound b
    omega
  · have hfe : ⌊a⌋ = ⌊b⌋ := le_antisymm (Int.floor_le_floor h) hf
    have hab : a - ⌊b⌋ ≤ b - ⌊b⌋ := by
      rw [← hfe]; linarith [(Int.floor_le_floor h : ⌊a⌋ ≤ ⌊b⌋)]
    unfold pyRound
    rw [hfe]
    split_ifs <;> first | omega | (exfalso; linarith)

theorem pyRound_intCast (n : ℤ) : pyRound (n : ℚ) = n := by
  unfold pyRound
  rw [Int.floor_intCast]
  norm_num

theorem mem_arange {a b i : ℤ} : i ∈ arange a b ↔ a ≤ i ∧ i < b := by
  unfold arange
  constructor
  · intro h
    obtain ⟨k, hk, hv⟩ := List.mem_map.mp h
    have hk2 := List.mem_range.mp hk
    omega
  · intro h
    apply List.mem_map.mpr
    exact ⟨(i - a).toNat, List.mem_range.mpr (by omega), by omega⟩

theorem arange_head {a b : ℤ} {i0 : ℤ} {rest : List ℤ} (h : arange a b = i0 :: rest) :
    i0 = a := by
  unfold arange at h
  rcases hn : (b - a).toNat with _ | n
  · rw [hn] at h
    simp at h
  · rw [hn, List.range_succ_eq_map] at h
    simp only [List.map_cons, List.map_map] at h
    have := (List.cons.injEq _ _ _ _).mp h
    omega

-- ### Lemmas about argmax and the threshold index set

theorem exists_max (l : List ℚ) (h : l ≠ []) : ∃ x ∈ l, ∀ y ∈ l, y ≤ x := by
  induction l with
  | nil => exact absurd rfl h
  | cons a t ih =>
    cases t with
    | nil => exact ⟨a, List.mem_cons_self a _, by simp⟩
    | cons b t2 =>
      obtain ⟨x, hx, hmax⟩ := ih (by simp)
      rcases le_total a x with hax | hxa
      · refine ⟨x, List.mem_cons_of_mem a hx, ?_⟩
        intro y hy
        rcases List.mem_cons.mp hy with rfl | hy2
        · exact hax
        · exact hmax y hy2
      · refine ⟨a, List.mem_cons_self a _, ?_⟩
        intro y hy
        rcases List.mem_cons.mp hy with rfl | hy2
        · exact le_rfl
        · exact (hmax y hy2).trans hxa

theorem argmax_lt_length {l : List ℚ} (h : l ≠ []) : argmax l < l.length := by
  apply List.findIdx_lt_length_of_exists
  obtain ⟨x, hx, hmax⟩ := exists_max l h
  refine ⟨x, hx, ?_⟩
  simp only [List.all_eq_true, decide_eq_true_eq]
  exact hmax

theorem nth_le_nth_argmax {l : List ℚ} {i : ℕ} (hi : i < l.length) :
    nth l i ≤ nth l (argmax l) := by
  have hne : l ≠ [] := by
    intro hl
    subst hl
    simp at hi
  have hlt : l.findIdx (fun x => l.all (fun y => decide (y ≤ x))) < l.length :=
    argmax_lt_length hne
  have hp := List.findIdx_getElem (p := fun x => l.all (fun y => decide (y ≤ x)))
    (w := hlt)
  simp only [List.all_eq_true, decide_eq_true_eq] at hp
  have h1 : nth l i = l[i] := List.getD_eq_getElem l 0 hi
  have h2 : nth l (argmax l) = l[l.findIdx (fun x => l.all (fun y => decide (y ≤ x)))] := by
    unfold argmax
    exact List.getD_eq_getElem l 0 hlt
  rw [h1, h2]
  exact hp _ (List.getElem_mem hi)

theorem sorted_head_le {l : List ℕ} (hs : l.Pairwise (· < ·)) {x : ℕ} (hx : x ∈ l)
    (h : l ≠ []) : l.head h ≤ x := by
  cases l with
  | nil => cases hx
  | cons a t =>
    rcases List.mem_cons.mp hx with rfl | hx2
    · simp
    · exact le_of_lt (List.rel_of_pairwise_cons hs hx2)

theorem sorted_le_getLast {l : List ℕ} (hs : l.Pairwise (· < ·)) {x : ℕ} (hx : x ∈ l)
    (h : l ≠ []) : x ≤ l.getLast h := by
  induction l with
  | nil => cases hx
  | cons a t ih =>
    cases t with
    | nil =>
      rcases List.mem_cons.mp hx with rfl | h2
      · simp
      · cases h2
    | cons b t2 =>
      rw [List.getLast_cons (by simp : b :: t2 ≠ [])]
      rcases List.mem_cons.mp hx with rfl | hx2
      · have hmem := List.getLast_mem (l := b :: t2) (by simp)
        exact le_of_lt (List.rel_of_pairwise_cons hs hmem)
      · exact ih (List.Pairwise.of_cons hs) hx2 (by simp)

theorem thresholdInds_sorted (data : List ℚ) (tl : ℚ) :
    (thresholdInds data tl).Pairwise (· < ·) :=
  List.Pairwise.filter _ (List.pairwise_lt_range _)

theorem mem_thresholdInds {data : List ℚ} {tl : ℚ} {i : ℕ} :
    i ∈ thresholdInds data tl ↔
      i < data.length ∧ nth data (argmax data) * tl < nth data i := by
  unfold thresholdInds
  rw [List.mem_filter, List.mem_range]
  simp

theorem argmax_mem_thresholdInds {data : List ℚ} {tl : ℚ}
    (hne : thresholdInds data tl ≠ []) :
    argmax data ∈ thresholdInds data tl := by
  obtain ⟨j, hj⟩ := List.exists_mem_of_ne_nil _ hne
  rw [mem_thresholdInds] at hj ⊢
  have hdne : data ≠ [] := by
    intro hd
    subst hd
    simp [nth] at hj
  have hple : nth data j ≤ nth data (argmax data) := nth_le_nth_argmax hj.1
  exact ⟨argmax_lt_length hdne, lt_of_lt_of_le hj.2 hple⟩

-- ### Inversion of a successful get_cut call

theorem get_cut_inversion {data : List ℚ} {tl m : ℚ} {c : CutRes}
    (h : get_cut data tl m = some c) :
    ∃ t ts, thresholdInds data tl = t :: ts ∧
      data ≠ [] ∧
      c.peakInd = argmax data ∧
      c.peak = nth data (argmax data) ∧
      c.thresholdWidth =
        (((t :: ts).getLast (List.cons_ne_nil t ts) : ℤ) - (t : ℤ)) ∧
      c.cutInds = arange
        (pyRound (max 0 ((argmax data : ℚ) - m * ((argmax data : ℚ) - (t : ℚ)))))
        (pyRound (min (data.length : ℚ)
          ((argmax data : ℚ) +
            m * (((t :: ts).getLast (List.cons_ne_nil t ts) : ℚ) - (argmax data : ℚ)) + 1))) := by
  unfold get_cut at h
  split at h
  · exact absurd h (by simp)
  · rename_i hne
    split at h
    · exact absurd h (by simp)
    · rename_i t ts heq
      refine ⟨t, ts, heq, by simpa [List.isEmpty_iff] using hne, ?_⟩
      obtain rfl := (Option.some.injEq _ _).mp h |>.symm
      exact ⟨rfl, rfl, rfl, rfl⟩

theorem get_cut_bounds {data : List ℚ} {tl m : ℚ} {c : CutRes}
    (h : get_cut data tl m = some c) : cutWithin c data.length := by
  obtain ⟨t, ts, htinds, hdne, hpi, hpk, htw, hinds⟩ := get_cut_inversion h
  intro i hi
  rw [hinds] at hi
  obtain ⟨h1, h2⟩ := mem_arange.mp hi
  have h0 : (0 : ℤ) ≤ pyRound (max 0 ((argmax data : ℚ) - m * ((argmax data : ℚ) - (t : ℚ)))) := by
    apply le_pyRound
    push_cast
    exact le_max_left _ _
  have hB : pyRound (min (data.length : ℚ)
      ((argmax data : ℚ) +
        m * (((t :: ts).getLast (List.cons_ne_nil t ts) : ℚ) - (argmax data : ℚ)) + 1)) ≤
      (data.length : ℤ) := by
    apply pyRound_le
    push_cast
    exact min_le_left _ _
  exact ⟨by omega, by omega⟩

theorem get_cut_contiguous {data : List ℚ} {tl m : ℚ} {c : CutRes}
    (h : get_cut data tl m = some c) : cutContiguous c := by
  obtain ⟨t, ts, htinds, hdne, hpi, hpk, htw, hinds⟩ := get_cut_inversion h
  intro i j k hi hk hij hjk
  rw [hinds] at hi hk ⊢
  rw [mem_arange] at hi hk ⊢
  omega

theorem get_cut_peak_and_nonempty {data : List ℚ} {tl m : ℚ} {c : CutRes}
    (h : get_cut data tl m = some c) (hm : 0 < m) :
    ((c.peakInd : ℤ) ∈ c.cutInds) ∧ c.cutInds ≠ [] := by
  obtain ⟨t, ts, htinds, hdne, hpi, hpk, htw, hinds⟩ := get_cut_inversion h
  have hmem : argmax data ∈ thresholdInds data tl := by
    apply argmax_mem_thresholdInds
    rw [htinds]
    exact List.cons_ne_nil t ts
  have hsorted := thresholdInds_sorted data tl
  rw [htinds] at hsorted hmem
  have ht_le_p : t ≤ argmax data := by
    have := sorted_head_le hsorted hmem (List.cons_ne_nil t ts)
    simpa using this
  have hp_le_t1 : argmax data ≤ (t :: ts).getLast (List.cons_ne_nil t ts) :=
    sorted_le_getLast hsorted hmem (List.cons_ne_nil t ts)
  have hplen : argmax data < data.length := argmax_lt_length hdne
  have hA : pyRound (max 0 ((argmax data : ℚ) - m * ((argmax data : ℚ) - (t : ℚ)))) ≤
      (argmax data : ℤ) := by
    apply pyRound_le
    have hsub : (0 : ℚ) ≤ m * ((argmax data : ℚ) - (t : ℚ)) := by
      apply mul_nonneg hm.le
      have : (t : ℚ) ≤ (argmax data : ℚ) := by exact_mod_cast ht_le_p
      linarith
    have h0 : (0 : ℚ) ≤ (argmax data : ℚ) := by positivity
    push_cast
    exact max_le h0 (by linarith)
  have hB : (argmax data : ℤ) + 1 ≤ pyRound (min (data.length : ℚ)
      ((argmax data : ℚ) +
        m * (((t :: ts).getLast (List.cons_ne_nil t ts) : ℚ) - (argmax data : ℚ)) + 1)) := by
    apply le_pyRound
    have hsub : (0 : ℚ) ≤ m * (((t :: ts).getLast (List.cons_ne_nil t ts) : ℚ) - (argmax data : ℚ)) := by
      apply mul_nonneg hm.le
      have : (argmax data : ℚ) ≤ ((t :: ts).getLast (List.cons_ne_nil t ts) : ℚ) := by
        exact_mod_cast hp_le_t1
      linarith
    have hlen : (argmax data : ℚ) + 1 ≤ (data.length : ℚ) := by exact_mod_cast hplen
    push_cast
    exact le_min hlen (by linarith)
  constructor
  · rw [hinds, hpi]
    exact mem_arange.mpr ⟨hA, by omega⟩
  · rw [hinds]
    exact List.ne_nil_of_mem (mem_arange.mpr ⟨hA, by omega⟩)

theorem get_cut_succeeds_core {data : List ℚ} {tl : ℚ} (m : ℚ)
    (hne : data ≠ []) (hpos : ∃ x ∈ data, 0 < x) (htl1 : tl < 1) :
    argmax data ∈ thresholdInds data tl ∧ ∃ c, get_cut data tl m = some c := by
  obtain ⟨x, hx, hxpos⟩ := hpos
  obtain ⟨ix, hix, hval⟩ := List.mem_iff_getElem.mp hx
  have hxle : x ≤ nth data (argmax data) := by
    have h1 : nth data ix = x := by rw [nth, List.getD_eq_getElem data 0 hix, hval]
    rw [← h1]
    exact nth_le_nth_argmax hix
  have hpk : 0 < nth data (argmax data) := lt_of_lt_of_le hxpos hxle
  have hcond : nth data (argmax data) * tl < nth data (argmax data) := by
    have := mul_lt_mul_of_pos_left htl1 hpk
    rwa [mul_one] at this
  have hmem : argmax data ∈ thresholdInds data tl :=
    mem_thresholdInds.mpr ⟨argmax_lt_length hne, hcond⟩
  have htne : thresholdInds data tl ≠ [] := List.ne_nil_of_mem hmem
  obtain ⟨t, ts, htinds⟩ : ∃ t ts, thresholdInds data tl = t :: ts := by
    cases hcase : thresholdInds data tl with
    | nil => exact absurd hcase htne
    | cons t ts => exact ⟨t, ts, rfl⟩
  have hE : data.isEmpty = false := by simpa [List.isEmpty_iff] using hne
  have hsome : ∃ c, get_cut data tl m = some c := by
    unfold get_cut
    rw [hE, htinds]
    simp
  exact ⟨hmem, hsome⟩

/-- C1: for every non-empty numeric data array with a strictly positive
maximum and every `threshold_level` in (0,1) and `cut_width_mult > 0`,
`get_cut` succeeds and returns cut indices that form a non-empty
contiguous subset of `[0, len(data))` and include the peak index. -/
theorem get_cut_returns_peak_window (data : List ℚ) (tl m : ℚ)
    (hne : data ≠ []) (hpos : ∃ x ∈ data, 0 < x)
    (_htl0 : 0 < tl) (htl1 : tl < 1) (hm : 0 < m) :
    goodCut data tl m := by
  obtain ⟨hmem, c, hc⟩ := get_cut_succeeds_core m hne hpos htl1
  exact ⟨c, hc, (get_cut_peak_and_nonempty hc hm).2, get_cut_bounds hc,
    get_cut_contiguous hc, (get_cut_peak_and_nonempty hc hm).1⟩

/-- Witness for C1 at the concrete spectrum `[1, 3, 2]` with the module
default parameters. -/
theorem get_cut_returns_peak_window_witness : goodCut [1, 3, 2] (1/2) (17/10) :=
  get_cut_returns_peak_window [1, 3, 2] (1/2) (17/10) (by decide)
    ⟨3, by decide, by decide⟩ (by with_unfolding_all decide)
    (by with_unfolding_all decide) (by with_unfolding_all decide)

/-- C2 counterexample: on the non-empty all-zero spectrum `[0, 0, 0]`
(with the module default parameters) the threshold index set is empty —
the peak value 0 does not exceed `0 * 0.5` — and `get_cut` raises an
IndexError (modelled by `none`) instead of returning a width-1 cut. -/
theorem get_cut_all_zero_raises : get_cut [0, 0, 0] (1/2) (17/10) = none := by
  with_unfolding_all decide

/-- C2 (amended): for every non-empty data array whose maximum is
strictly positive and `threshold_level < 1`, the set of indices where
`data[i] > peak * threshold_level` is non-empty (the peak itself
qualifies) and `get_cut` raises no exception; on an all-zero (or any
nonpositive-maximum) array the set is empty and `get_cut` raises. -/
theorem get_cut_no_exception_of_pos_max (data : List ℚ) (tl m : ℚ)
    (hne : data ≠ []) (hpos : ∃ x ∈ data, 0 < x) (htl1 : tl < 1) :
    argmax data ∈ thresholdInds data tl ∧ thresholdInds data tl ≠ [] ∧
      ∃ c, get_cut data tl m = some c := by
  obtain ⟨hmem, hsome⟩ := get_cut_succeeds_core m hne hpos htl1
  exact ⟨hmem, List.ne_nil_of_mem hmem, hsome⟩

/-- Witness for the amended C2 at the concrete spectrum `[0, 4]`. -/
theorem get_cut_no_exception_of_pos_max_witness :
    argmax [0, 4] ∈ thresholdInds [0, 4] (1/2) ∧ thresholdInds [0, 4] (1/2) ≠ [] ∧
      ∃ c, get_cut [0, 4] (1/2) (17/10) = some c :=
  get_cut_no_exception_of_pos_max [0, 4] (1/2) (17/10) (by decide)
    ⟨4, by decide, by decide⟩ (by with_unfolding_all decide)

/-- C5: for fixed data and threshold, a larger `cut_width_mult` never
shrinks the cut: every index in the cut computed with `m1 ≤ m2` is also
in the cut computed with `m2` (inclusion monotonicity of the window). -/
theorem get_cut_mono_in_mult (data : List ℚ) (tl m1 m2 : ℚ) (c1 c2 : CutRes)
    (h1 : get_cut data tl m1 = some c1) (h2 : get_cut data tl m2 = some c2)
    (hm : m1 ≤ m2) : c1.cutInds ⊆ c2.cutInds := by
  obtain ⟨t, ts, htinds, hdne, _, _, _, hinds1⟩ := get_cut_inversion h1
  obtain ⟨t', ts', htinds', _, _, _, _, hinds2⟩ := get_cut_inversion h2
  rw [htinds] at htinds'
  obtain ⟨heq1, heq2⟩ := List.cons.inj htinds'
  subst heq1
  subst heq2
  have hmem : argmax data ∈ thresholdInds data tl := by
    apply argmax_mem_thresholdInds
    rw [htinds]
    exact List.cons_ne_nil t ts
  have hsorted := thresholdInds_sorted data tl
  rw [htinds] at hsorted hmem
  have ht_le_p : t ≤ argmax data := by
    have := sorted_head_le hsorted hmem (List.cons_ne_nil t ts)
    simpa using this
  have hp_le_t1 : argmax data ≤ (t :: ts).getLast (List.cons_ne_nil t ts) :=
    sorted_le_getLast hsorted hmem (List.cons_ne_nil t ts)
  have hptq : (0 : ℚ) ≤ (argmax data : ℚ) - (t : ℚ) := by
    have : (t : ℚ) ≤ (argmax data : ℚ) := by exact_mod_cast ht_le_p
    linarith
  have ht1q : (0 : ℚ) ≤ ((t :: ts).getLast (List.cons_ne_nil t ts) : ℚ) - (argmax data : ℚ) := by
    have : (argmax data : ℚ) ≤ ((t :: ts).getLast (List.cons_ne_nil t ts) : ℚ) := by
      exact_mod_cast hp_le_t1
    linarith
  have hlo : pyRound (max 0 ((argmax data : ℚ) - m2 * ((argmax data : ℚ) - (t : ℚ)))) ≤
      pyRound (max 0 ((argmax data : ℚ) - m1 * ((argmax data : ℚ) - (t : ℚ)))) := by
    apply pyRound_mono
    apply max_le_max le_rfl
    have := mul_le_mul_of_nonneg_right hm hptq
    linarith
  have hhi : pyRound (min (data.length : ℚ)
      ((argmax data : ℚ) +
        m1 * (((t :: ts).getLast (List.cons_ne_nil t ts) : ℚ) - (argmax data : ℚ)) + 1)) ≤
      pyRound (min (data.length : ℚ)
      ((argmax data : ℚ) +
        m2 * (((t :: ts).getLast (List.cons_ne_nil t ts) : ℚ) - (argmax data : ℚ)) + 1)) := by
    apply pyRound_mono
    apply min_le_min le_rfl
    have := mul_le_mul_of_nonneg_right hm ht1q
    linarith
  intro i hi
  rw [hinds1] at hi
  rw [hinds2]
  rw [mem_arange] at hi ⊢
  omega

/-- Witness for C5: the symmetric spectrum `[1, 2, 3, 2, 1]` with
multipliers 1 and 2 gives cuts `[1, 4)` and `[0, 5)`, the former
included in the latter. -/
theorem get_cut_mono_in_mult_witness :
    get_cut [1, 2, 3, 2, 1] (1/2) 1 = some ⟨arange 1 4, 2, 2, 3⟩ ∧
    get_cut [1, 2, 3, 2, 1] (1/2) 2 = some ⟨arange 0 5, 2, 2, 3⟩ ∧
    (CutRes.mk (arange 1 4) 2 2 3).cutInds ⊆ (CutRes.mk (arange 0 5) 2 2 3).cutInds :=
  ⟨by with_unfolding_all decide, by with_unfolding_all decide,
    get_cut_mono_in_mult [1, 2, 3, 2, 1] (1/2) 1 2 ⟨arange 1 4, 2, 2, 3⟩ ⟨arange 0 5, 2, 2, 3⟩
      (by with_unfolding_all decide) (by with_unfolding_all decide) (by norm_num)⟩

theorem fit_mca_gaussian_ok_inv {mca : MeasMCA} {inds : List ℤ} {counts : List ℚ}
    {peak peak_ind threshold_width : ℚ} {call : FitCall}
    (h : fit_mca_gaussian mca inds counts peak peak_ind threshold_width = Except.ok call) :
    call.x = inds ∧ call.y = counts := by
  unfold fit_mca_gaussian at h
  split at h
  · have h' := Except.ok.inj h
    subst h'
    exact ⟨rfl, rfl⟩
  · exact absurd h (by simp)

theorem pySliceTo_length_le {l : List ℚ} {stop : ℤ} (hstop : 0 ≤ stop) :
    ((pySliceTo l stop).length : ℤ) ≤ stop := by
  unfold pySliceTo
  rw [if_neg (by omega)]
  simp [List.length_take]
  omega

/-- C6: in the dual-peak fit, the secondary peak search runs on the
prefix of the counts ending 10 channels before the primary cut's start;
whenever the primary cut starts at channel 10 or later (as it does for
well-separated peaks), no index of the secondary cut lies inside the
primary cut. -/
theorem fe_secondary_disjoint (st : FitState) (tl m : ℚ) (cA cB : FitCall)
    (h : (fit_fe_run st tl m true).2 = some (Except.ok (FeResult.dual cA cB)))
    (hsep : ∀ j ∈ cA.x, (10 : ℤ) ≤ j) :
    List.Disjoint cB.x cA.x := by
  unfold fit_fe_run at h
  split at h
  case h_1 => simp at h
  case h_2 c hget =>
    split at h
    case h_1 e herr => simp at h
    case h_2 fit hfit =>
      rw [if_pos rfl] at h
      split at h
      case h_1 hnil => simp at h
      case h_2 i0 rest hcut =>
        split at h
        case h_1 => simp at h
        case h_2 c2 hc2 =>
          split at h
          case h_1 e herr => simp at h
          case h_2 fit2 hfit2 =>
            simp only [Option.some.injEq, Except.ok.injEq, FeResult.dual.injEq] at h
            obtain ⟨rfl, rfl⟩ := h
            obtain ⟨hxA, _⟩ := fit_mca_gaussian_ok_inv hfit
            obtain ⟨hxB, _⟩ := fit_mca_gaussian_ok_inv hfit2
            obtain ⟨t, ts, _, _, _, _, _, hinds1⟩ := get_cut_inversion hget
            have hi0 : i0 = pyRound (max 0 ((argmax (st.subtracted.getD st.mca.counts) : ℚ) -
                m * ((argmax (st.subtracted.getD st.mca.counts) : ℚ) - (t : ℚ)))) := by
              apply arange_head
              rw [← hinds1]
              exact hcut
            have h10 : (10 : ℤ) ≤ i0 := by
              apply hsep
              rw [hxA, hcut]
              exact List.mem_cons_self i0 rest
            have hbounds := get_cut_bounds hc2
            have hlen : (((pySliceTo (st.subtracted.getD st.mca.counts) (i0 - 10))).length : ℤ) ≤
                i0 - 10 := pySliceTo_length_le (by omega)
            intro a haB haA
            have hB := hbounds a (by rw [← hxB]; exact haB)
            have hA : pyRound (max 0 ((argmax (st.subtracted.getD st.mca.counts) : ℚ) -
                m * ((argmax (st.subtracted.getD st.mca.counts) : ℚ) - (t : ℚ)))) ≤ a := by
              have haA2 := haA
              rw [hxA, hinds1] at haA2
              exact (mem_arange.mp haA2).1
            omega

/-- Witness for C6 on the synthetic two-peak spectrum: the primary cut
is `[72, 90)`, the secondary search runs on channels `[0, 62)` and
returns the cut `[17, 24)`, disjoint from the primary cut. -/
theorem fe_secondary_disjoint_witness :
    (fit_fe_run feState (1/2) (17/10) true).2 =
      some (Except.ok (FeResult.dual feCallA feCallB)) ∧
    List.Disjoint feCallB.x feCallA.x :=
  ⟨by with_unfolding_all rfl,
    fe_secondary_disjoint feState (1/2) (17/10) feCallA feCallB
      (by with_unfolding_all rfl) (by with_unfolding_all decide)⟩

/-- C3: whenever the refined (orthogonal-distance) covariance matrix is
entirely zero (falsy for `np.any`), `fit_odr` discards the refined
result and returns exactly the stage-1 least-squares seed parameters
and seed covariance, after emitting the non-fatal fallback warning. -/
theorem fit_odr_fallback_returns_seed (lsq odrOut : List PyFloat × List (List PyFloat))
    (hzero : ∀ row ∈ odrOut.2, ∀ e ∈ row, e = PyFloat.fin 0) :
    (fit_odr lsq odrOut).1 = lsq ∧
      FitWarning.odrCovNotEstimated ∈ (fit_odr lsq odrOut).2 := by
  have hfalse : npAny odrOut.2 = false := by
    simp only [npAny, List.any_eq_false]
    intro row hrow hcontra
    obtain ⟨e, he, htr⟩ := List.any_eq_true.mp hcontra
    rw [hzero row hrow e he] at htr
    simp [PyFloat.truthy] at htr
  unfold fit_odr
  rw [hfalse]
  simp

/-- Witness for C3 with a one-parameter seed and an all-zero refined
covariance: the seed pair comes back unchanged with the warning. -/
theorem fit_odr_fallback_returns_seed_witness :
    (fit_odr ([PyFloat.fin 1], [[PyFloat.fin 2]]) ([PyFloat.fin 3], [[PyFloat.fin 0]])).1 =
      ([PyFloat.fin 1], [[PyFloat.fin 2]]) ∧
    FitWarning.odrCovNotEstimated ∈
      (fit_odr ([PyFloat.fin 1], [[PyFloat.fin 2]]) ([PyFloat.fin 3], [[PyFloat.fin 0]])).2 :=
  fit_odr_fallback_returns_seed ([PyFloat.fin 1], [[PyFloat.fin 2]])
    ([PyFloat.fin 3], [[PyFloat.fin 0]]) (by decide)

theorem PyFloat.isinf_eq_true_iff (e : PyFloat) :
    e.isinf = true ↔ e = PyFloat.inf ∨ e = PyFloat.ninf := by
  cases e <;> simp [PyFloat.isinf]

/-- C8 counterexample: a seed covariance whose only entry is NaN is
non-finite, yet `fit_odr` emits no warning at all: the code checks
`np.isinf`, and `np.isinf(nan)` is false. -/
theorem fit_odr_nan_covariance_no_warning :
    (fit_odr ([PyFloat.fin 1], [[PyFloat.nan]])
      ([PyFloat.fin 1], [[PyFloat.fin 1]])).2 = [] := by
  with_unfolding_all decide

/-- C8 (amended): the stage-1 warning is emitted if and only if some
entry of the seed covariance is infinite (`np.isinf`); NaN entries do
not trigger it, and an all-finite covariance emits no warning. -/
theorem fit_odr_seed_warning_iff (lsq odrOut : List PyFloat × List (List PyFloat)) :
    FitWarning.leastSquaresCovNotEstimated ∈ (fit_odr lsq odrOut).2 ↔
      ∃ row ∈ lsq.2, ∃ e ∈ row, e = PyFloat.inf ∨ e = PyFloat.ninf := by
  have hiff : npAnyInf lsq.2 = true ↔
      ∃ row ∈ lsq.2, ∃ e ∈ row, e = PyFloat.inf ∨ e = PyFloat.ninf := by
    simp only [npAnyInf, List.any_eq_true, PyFloat.isinf_eq_true_iff]
  rw [← hiff]
  unfold fit_odr
  rcases Bool.eq_false_or_eq_true (npAny odrOut.2) with ha | ha <;>
    rcases Bool.eq_false_or_eq_true (npAnyInf lsq.2) with hb | hb <;>
      simp [ha, hb]

/-- C4: `fit_mca_gaussian` raises the configuration error (a ValueError,
before any solver invocation is constructed) precisely when the spectrum
lacks a differential or integral nonlinearity array; with both arrays
present no such error is raised. -/
theorem fit_mca_gaussian_config_error_iff (mca : MeasMCA) (inds : List ℤ)
    (counts : List ℚ) (peak peak_ind threshold_width : ℚ) :
    (mca.diff_nonlin = none ∨ mca.int_nonlin = none) ↔
      fit_mca_gaussian mca inds counts peak peak_ind threshold_width =
        Except.error ConfigError.nonlinearitiesNotConfigured := by
  unfold fit_mca_gaussian
  cases hd : mca.diff_nonlin <;> cases hi : mca.int_nonlin <;> simp

/-- C7: with both nonlinearity arrays present, `fit_mca_gaussian` hands
the two-stage fitter the scaled-Gaussian model, the cut indices and
windowed counts, `std_x` equal to the differential nonlinearity array,
`std_y` equal to the integral nonlinearity times the windowed counts
pointwise, and the initial guess `(peak, peak_ind, 0.4 * threshold_width)`. -/
theorem fit_mca_gaussian_call_shape (mca : MeasMCA) (inds : List ℤ) (counts : List ℚ)
    (peak peak_ind threshold_width : ℚ) (dnl inl : List ℚ)
    (hd : mca.diff_nonlin = some dnl) (hi : mca.int_nonlin = some inl) :
    fit_mca_gaussian mca inds counts peak peak_ind threshold_width =
      Except.ok ⟨ModelFn.gaussian_scaled, inds, counts, dnl,
        List.zipWith (· * ·) inl counts, [peak, peak_ind, (2/5) * threshold_width]⟩ := by
  unfold fit_mca_gaussian
  rw [hd, hi]

/-- Witness for C7 on a one-channel spectrum. -/
theorem fit_mca_gaussian_call_shape_witness :
    fit_mca_gaussian ⟨[5], [0], some [1/10], some [1/5]⟩ [0] [5] 5 0 2 =
      Except.ok ⟨ModelFn.gaussian_scaled, [0], [5], [1/10],
        List.zipWith (· * ·) [1/5] [5], [5, 0, (2/5) * 2]⟩ :=
  fit_mca_gaussian_call_shape ⟨[5], [0], some [1/10], some [1/5]⟩ [0] [5] 5 0 2
    [1/10] [1/5] rfl rfl

theorem foldl_append_singleton {α β : Type} (f : α → β) (l : List α) (acc : List β) :
    l.foldl (fun fits x => fits ++ [f x]) acc = acc ++ l.map f := by
  induction l generalizing acc with
  | nil => simp
  | cons a t ih => simp [ih]

/-- C9: each HV-scan orchestrator is the elementwise application of its
single-spectrum fit — the accumulation loop equals `List.map`, so the
i-th result depends only on the i-th spectrum — and permuting the input
spectra permutes the outputs identically (equal multisets of results). -/
theorem hv_scan_batch_independence (mcas mcas2 : List MeasMCA) (tl m : ℚ)
    (hperm : mcas.Perm mcas2) :
    fit_fe_hv_scan mcas tl m = mcas.map (feSingle tl m) ∧
    fit_am_hv_scan mcas = mcas.map amSingle ∧
    (fit_fe_hv_scan mcas tl m).Perm (fit_fe_hv_scan mcas2 tl m) ∧
    (fit_am_hv_scan mcas).Perm (fit_am_hv_scan mcas2) := by
  have h1 : ∀ (l : List MeasMCA), fit_fe_hv_scan l tl m = l.map (feSingle tl m) := by
    intro l
    unfold fit_fe_hv_scan
    simpa using foldl_append_singleton (feSingle tl m) l []
  have h2 : ∀ (l : List MeasMCA), fit_am_hv_scan l = l.map amSingle := by
    intro l
    unfold fit_am_hv_scan
    simpa using foldl_append_singleton amSingle l []
  refine ⟨h1 mcas, h2 mcas, ?_, ?_⟩
  · rw [h1 mcas, h1 mcas2]
    exact hperm.map _
  · rw [h2 mcas, h2 mcas2]
    exact hperm.map _

/-- Witness for C9 on a two-spectrum batch and its swap. -/
theorem hv_scan_batch_independence_witness :
    fit_fe_hv_scan [mcaW1, mcaW2] (1/2) (17/10) =
      [mcaW1, mcaW2].map (feSingle (1/2) (17/10)) ∧
    fit_am_hv_scan [mcaW1, mcaW2] = [mcaW1, mcaW2].map amSingle ∧
    (fit_fe_hv_scan [mcaW1, mcaW2] (1/2) (17/10)).Perm
      (fit_fe_hv_scan [mcaW2, mcaW1] (1/2) (17/10)) ∧
    (fit_am_hv_scan [mcaW1, mcaW2]).Perm (fit_am_hv_scan [mcaW2, mcaW1]) :=
  hv_scan_batch_independence [mcaW1, mcaW2] [mcaW2, mcaW1] (1/2) (17/10) (by decide)

/-- C10: no fit mutates its input environment: all three fit entry
points return the spectrum and the caller-supplied subtracted array
unchanged, and the Gaussian fit issued by `fit_am` takes its y data from
the original counts (gathered at the cut), not from the zeroed copy the
cut was derived on. -/
theorem fits_do_not_mutate_spectrum (st : FitState) (tl m : ℚ) (sec : Bool)
    (mi ma : ℕ) (call : FitCall) :
    (fit_am_run st tl m).1 = st ∧
    (fit_fe_run st tl m sec).1 = st ∧
    (fit_manual_run st mi ma).1 = st ∧
    ((fit_am_run st tl m).2 = some (Except.ok call) →
      call.y = gatherAt (st.subtracted.getD st.mca.counts) call.x) := by
  refine ⟨?_, ?_, ?_, ?_⟩
  · unfold fit_am_run
    repeat' split
    all_goals rfl
  · unfold fit_fe_run
    repeat' split
    all_goals rfl
  · unfold fit_manual_run
    repeat' split
    all_goals rfl
  · intro h
    unfold fit_am_run at h
    split at h
    case isTrue => simp at h
    case isFalse =>
      split at h
      case h_1 => simp at h
      case h_2 a rest hfilter =>
        split at h
        case h_1 => simp at h
        case h_2 c hc =>
          simp only [Option.some.injEq] at h
          obtain ⟨hx, hy⟩ := fit_mca_gaussian_ok_inv h
          rw [hy, hx]

/-- Witness for C10 on the concrete spectrum `mcaW1`: the cut is derived
from the zeroed copy `[0, 3, 2]`, while the fitted y data `[3, 2]` are
the original counts at the cut indices. -/
theorem fits_do_not_mutate_spectrum_witness :
    (fit_am_run ⟨mcaW1, none⟩ (1/2) (17/10)).1 = ⟨mcaW1, none⟩ ∧
    (fit_am_run ⟨mcaW1, none⟩ (1/2) (17/10)).2 = some (Except.ok amCallW) ∧
    amCallW.y = gatherAt mcaW1.counts amCallW.x :=
  ⟨(fits_do_not_mutate_spectrum ⟨mcaW1, none⟩ (1/2) (17/10) false 0 0 amCallW).1,
   by with_unfolding_all rfl,
   (fits_do_not_mutate_spectrum ⟨mcaW1, none⟩ (1/2) (17/10) false 0 0 amCallW).2.2.2
     (by with_unfolding_all rfl)⟩
